import Mathlib

/-!
Verification of the donkeytype session engine core.

Rust strings are modelled as `List Char` (sequences of Unicode scalar
values); `str::len()` (UTF-8 byte length) is modelled by `byteLen`,
character counts by `List.length`.  `usize`/`u64` arithmetic is modelled
on `Nat` (with explicit `% 2^16` where the source casts through `u16`),
and `f64` arithmetic on `ℚ` (exact; the proved statements only involve
values at which the source's f64 computations are exact).
-/

namespace Donkeytype

/-- `helpers::split_by_char_index`: splits a string at the `char_index`-th
character boundary; when the string has at most `char_index` characters the
whole string is returned as the first component and the second is empty. -/
def split_by_char_index (string : List Char) (char_index : Nat) :
    List Char × List Char :=
  (string.take char_index, string.drop char_index)

/-- `ExpectedInput::get_string`: appends a single trailing space to the
stored corpus, repeats the padded corpus `len / padded_length + 1` times
and truncates at the `len`-th character boundary. -/
def get_string (str : List Char) (len : Nat) : List Char :=
  let s := str ++ [' ']
  let s2 := List.flatten (List.replicate (len / s.length + 1) s)
  (split_by_char_index s2 len).1

/-- The line-wrap computation of `Runner::render`: with
`input_chars_count = self.input.chars().count()` and
`frame_width = frame.size().width`, the source computes
`current_line_index = (input_chars_count / frame_width) as u16` (the cast
to `u16` is modelled by `% 65536`), requests
`(current_line_index as usize + 2) * frame_width` characters of expected
text, splits them at character index `(current_line_index + 1) * frame_width`
into the current block and the following lines, and splits the current
block at `input_chars_count` into the already-typed part and the
current-line remainder. -/
def render_split (corpus : List Char) (input_chars_count frame_width : Nat) :
    List Char × List Char × List Char :=
  let current_line_index := (input_chars_count / frame_width) % 65536
  let expected_input_str :=
    get_string corpus ((current_line_index + 2) * frame_width)
  let p1 := split_by_char_index expected_input_str
    ((current_line_index + 1) * frame_width)
  let p2 := split_by_char_index p1.1 input_chars_count
  (p2.1, p2.2, p1.2)

/-- UTF-8 byte length of a string (Rust's `str::len`). -/
def byteLen (s : List Char) : Nat := (s.map Char.utf8Size).sum

/-- Rust's `char::is_whitespace`: the Unicode `White_Space` property. -/
def isRustWhitespace (c : Char) : Bool :=
  (0x09 ≤ c.toNat && c.toNat ≤ 0x0D) || c.toNat == 0x20 ||
    c.toNat == 0x85 || c.toNat == 0xA0 || c.toNat == 0x1680 ||
    (0x2000 ≤ c.toNat && c.toNat ≤ 0x200A) || c.toNat == 0x2028 ||
    c.toNat == 0x2029 || c.toNat == 0x202F || c.toNat == 0x205F ||
    c.toNat == 0x3000

/-- Accumulator-based splitter: `swAux s acc` splits `s` on runs of
whitespace, with `acc` holding the (reversed) current word. -/
def swAux : List Char → List Char → List (List Char)
  | [], acc => if acc.isEmpty then [] else [acc.reverse]
  | c :: rest, acc =>
    if isRustWhitespace c then
      (if acc.isEmpty then [] else [acc.reverse]) ++ swAux rest []
    else
      swAux rest (c :: acc)

/-- Rust's `str::split_whitespace`: splits on runs of Unicode whitespace,
discarding empty substrings. -/
def split_whitespace (s : List Char) : List (List Char) := swAux s []

/-- `Vec<&str>::join(" ")` as used by `Runner::remove_last_word`. -/
def joinSpace : List (List Char) → List Char
  | [] => []
  | [w] => w
  | w :: ws => w ++ ' ' :: joinSpace ws

/-- `Runner::remove_last_word`: splits the input on whitespace, pops the
last word, rejoins with single spaces, and pushes a trailing space when
the joined string is nonempty. -/
def remove_last_word (input : List Char) : List Char :=
  let words := (split_whitespace input).dropLast
  let input2 := joinSpace words
  if input2.isEmpty then input2 else input2 ++ [' ']

/-- `InputMode` of the runner (`Normal` = paused, `Editing` = running). -/
inductive InputMode
  | Normal
  | Editing
  deriving DecidableEq

/-- The modifier flags of a key event that the runner inspects. -/
structure KeyModifiers where
  control : Bool
  alt : Bool
  deriving DecidableEq

/-- The key codes the runner reacts to; `Other` stands for every key code
that falls into the catch-all arms of the source's `match`. -/
inductive KeyCode
  | Char (c : Char)
  | Backspace
  | Esc
  | Other
  deriving DecidableEq

/-- A pressed key event (`KeyEventKind::Press`). -/
structure KeyEvent where
  code : KeyCode
  modifiers : KeyModifiers
  deriving DecidableEq

/-- The key-event-relevant state of `Runner`.  `expected_corpus` is the
string held by the boxed `ExpectedInput` provider (whose `get_string` is
`Donkeytype.get_string`); the timing fields (`start_time`, `pause_time`)
are not modelled. -/
structure RunnerState where
  input : List Char
  input_mode : InputMode
  expected_corpus : List Char
  raw_mistakes_count : Nat
  raw_valid_characters_count : Nat
  is_started : Bool
  deriving DecidableEq

/-- Result of one key-event step: either the loop continues with a new
state, or the `q` key returned a cancelled test. -/
inductive StepResult
  | next (s : RunnerState)
  | cancelled
  deriving DecidableEq

/-- The `InputMode::Editing` arm of the key-event `match` in
`Runner::run`: ctrl+`h`/`w` and alt/ctrl+backspace delete the last word;
a printable character is pushed onto `input` and its correctness judged
by comparing `input.chars().last()` with the last character of
`get_string(input.len())` — note that `input.len()` is the UTF-8 *byte*
length of the input; plain backspace pops the last character; `Esc`
switches to `Normal` mode. -/
def handleKeyEditing (s : RunnerState) (key : KeyEvent) : RunnerState :=
  match key.code with
  | .Char c =>
    if (c == 'h' || c == 'w') && key.modifiers.control then
      { s with input := remove_last_word s.input }
    else
      let input := s.input ++ [c]
      let expected_input := get_string s.expected_corpus (byteLen input)
      let is_correct := input.getLast? == expected_input.getLast?
      if !is_correct then
        { s with input := input,
                 raw_mistakes_count := s.raw_mistakes_count + 1 }
      else
        { s with input := input,
                 raw_valid_characters_count :=
                   s.raw_valid_characters_count + 1 }
  | .Backspace =>
    if key.modifiers.alt || key.modifiers.control then
      { s with input := remove_last_word s.input }
    else
      { s with input := s.input.dropLast }
  | .Esc => { s with input_mode := .Normal }
  | .Other => s

/-- The `InputMode::Normal` arm: `s` starts/resumes the test, `q` cancels
it, anything else is ignored. -/
def handleKeyNormal (s : RunnerState) (key : KeyEvent) : StepResult :=
  match key.code with
  | .Char c =>
    if c == 's' then
      .next { s with is_started := true, input_mode := .Editing }
    else if c == 'q' then
      .cancelled
    else
      .next s
  | _ => .next s

/-- One key-event transition of `Runner::run`. -/
def handleKey (s : RunnerState) (key : KeyEvent) : StepResult :=
  match s.input_mode with
  | .Normal => handleKeyNormal s key
  | .Editing => .next (handleKeyEditing s key)

/-- `test_results::Stats`; the `f64` fields are modelled as exact
rationals and the `u64` counters as `Nat`. -/
structure Stats where
  wpm : ℚ
  raw_accuracy : ℚ
  raw_valid_characters_count : Nat
  raw_mistakes_count : Nat
  raw_typed_characters_count : Nat
  accuracy : ℚ
  valid_characters_count : Nat
  mistakes_count : Nat
  typed_characters_count : Nat

/-- The `get_percentage` helper nested inside `Runner::get_stats`. -/
def get_percentage (numerator denominator : ℚ) : ℚ :=
  if denominator = 0 then 0 else numerator / denominator * 100

/-- `Runner::get_stats`: the expected slice is
`get_string(typed_characters_count)`, mistakes are the positions of the
zipped character streams that differ, and `duration_secs` is
`config.duration.as_secs()`. -/
def get_stats (corpus input : List Char)
    (raw_valid_characters_count raw_mistakes_count : Nat)
    (duration_secs : Nat) : Stats :=
  let typed_characters := input
  let typed_characters_count := typed_characters.length
  let expected_characters := get_string corpus typed_characters_count
  let mistakes_count :=
    ((typed_characters.zip expected_characters).filter
      (fun p => p.1 != p.2)).length
  let valid_characters_count := typed_characters_count - mistakes_count
  { wpm := (valid_characters_count : ℚ) / 5 * 60 / (duration_secs : ℚ),
    raw_accuracy := get_percentage (raw_valid_characters_count : ℚ)
      (((raw_valid_characters_count + raw_mistakes_count : Nat)) : ℚ),
    raw_valid_characters_count := raw_valid_characters_count,
    raw_mistakes_count := raw_mistakes_count,
    raw_typed_characters_count :=
      raw_valid_characters_count + raw_mistakes_count,
    accuracy := get_percentage
      (((typed_characters_count - mistakes_count : Nat)) : ℚ)
      (typed_characters_count : ℚ),
    valid_characters_count := valid_characters_count,
    mistakes_count := mistakes_count,
    typed_characters_count := typed_characters_count }

/-- Rust's `f64::round` (round half away from zero), on exact rationals. -/
def roundHalfAwayFromZero (q : ℚ) : ℤ :=
  if 0 ≤ q then ⌊q + 1 / 2⌋ else ⌈q - 1 / 2⌉

/-- `(numbers_ratio * string_vec.len() as f64).round() as usize`; the
float-to-`usize` cast saturates at 0 for negative values. -/
def change_to_num_threshold (numbers_ratio : ℚ) (n : Nat) : Nat :=
  (roundHalfAwayFromZero (numbers_ratio * n)).toNat

/-- `expected_input::replace_words_with_numbers`: words with index below
`change_to_num_threshold` are replaced by `word.len()` (UTF-8 *bytes*)
random decimal digits; the function returns `change_to_num_threshold - 1`
as a `usize`, which underflows when the threshold is `0` — the underflow
is modelled by returning `none`.  The `ThreadRng` is modelled as an
arbitrary stream `rng` of digit draws indexed by word index and character
position. -/
def replace_words_with_numbers (string_vec : List (List Char))
    (rng : Nat → Nat → Fin 10) (numbers_ratio : ℚ) :
    Option (List (List Char) × Nat) :=
  let threshold := change_to_num_threshold numbers_ratio string_vec.length
  let new_vec := string_vec.enum.map (fun iw =>
    if iw.1 < threshold then
      (List.range (byteLen iw.2)).map
        (fun k => Char.ofNat ('0'.toNat + (rng iw.1 k).val))
    else iw.2)
  if threshold = 0 then none else some (new_vec, threshold - 1)

/-- A fixed digit stream standing in for `ThreadRng` in concrete runs. -/
def rng0 : Nat → Nat → Fin 10 := fun _ _ => 0

theorem length_join_replicate (k : Nat) (s : List Char) :
    (List.flatten (List.replicate k s)).length = k * s.length := by
  induction k with
  | zero => simp
  | succ n ih => simp [List.replicate_succ, ih, Nat.succ_mul, Nat.add_comm]

theorem lt_div_succ_mul (len L : Nat) (hL : 0 < L) :
    len < (len / L + 1) * L := by
  have h1 := Nat.div_add_mod len L
  have h2 := Nat.mod_lt len hL
  calc len = L * (len / L) + len % L := h1.symm
    _ < L * (len / L) + L := by omega
    _ = (len / L + 1) * L := by ring

/-- C1: `get_string` returns exactly `len` characters, for every corpus
(including corpora with multi-byte characters) and every `len ≥ 0`. -/
theorem get_string_length (str : List Char) (len : Nat) :
    (get_string str len).length = len := by
  unfold get_string split_by_char_index
  simp only [List.length_take, length_join_replicate]
  have hL : 0 < (str ++ [' ']).length := by simp
  exact Nat.min_eq_left (Nat.le_of_lt (lt_div_succ_mul len _ hL))

theorem take_flatten_replicate_of_le (s : List Char) {a b n : Nat}
    (hab : a ≤ b) (hn : n ≤ a * s.length) :
    (List.flatten (List.replicate a s)).take n
      = (List.flatten (List.replicate b s)).take n := by
  have hb : b = a + (b - a) := by omega
  rw [hb, List.replicate_add, List.flatten_append,
    List.take_append_of_le_length]
  rw [length_join_replicate]
  exact hn

theorem get_string_eq_take (str : List Char) {n K : Nat}
    (hK : n / (str ++ [' ']).length + 1 ≤ K) :
    get_string str n
      = (List.flatten (List.replicate K (str ++ [' ']))).take n := by
  unfold get_string split_by_char_index
  have hL : 0 < (str ++ [' ']).length := by simp
  exact take_flatten_replicate_of_le _ hK
    (Nat.le_of_lt (lt_div_succ_mul n _ hL))

/-- C9: for `n ≤ m`, `get_string n` is a prefix (by characters) of
`get_string m`: both are truncations of the same repetition of the
space-padded corpus. -/
theorem get_string_prefix (str : List Char) (n m : Nat) (h : n ≤ m) :
    get_string str n <+: get_string str m := by
  set L := (str ++ [' ']).length with hLdef
  have hdiv : n / L + 1 ≤ m / L + 1 :=
    Nat.succ_le_succ (Nat.div_le_div_right h)
  rw [get_string_eq_take str hdiv,
    get_string_eq_take str (Nat.le_refl (m / L + 1))]
  have : (List.flatten (List.replicate (m / L + 1) (str ++ [' ']))).take n
      = ((List.flatten (List.replicate (m / L + 1) (str ++ [' ']))).take m).take n := by
    rw [List.take_take, Nat.min_eq_left h]
  rw [this]
  exact List.take_prefix n _

/-- C9 witness: concrete instance of the prefix property. -/
theorem get_string_prefix_witness :
    3 ≤ 5 ∧ get_string ['a', 'b'] 3 <+: get_string ['a', 'b'] 5 :=
  ⟨by decide, get_string_prefix ['a', 'b'] 3 5 (by decide)⟩

/-- C2 counterexample: at `typed_length = 65536` and `width = 1` the cast
of the current line index through `u16` truncates it to `0`, so the
already-typed part has 1 character, not `typed_length` of them. -/
theorem render_split_u16_truncation_cx :
    (render_split ['a'] 65536 1).1.length = 1 ∧
    (render_split ['a'] 65536 1).1.length ≠ 65536 := by
  decide

/-- C2 (amended): provided the current line index fits in `u16`
(`typed_length / width < 65536`), the already-typed part has exactly
`typed_length` characters and the current-line remainder spans exactly
`width - typed_length % width` characters, for every corpus and every
`width ≥ 1`. -/
theorem render_split_lengths (corpus : List Char) (typed width : Nat)
    (h1 : 1 ≤ width) (h2 : typed / width < 65536) :
    (render_split corpus typed width).1.length = typed ∧
    (render_split corpus typed width).2.1.length = width - typed % width := by
  have hm : typed % width < width := Nat.mod_lt typed h1
  have hd : typed / width * width + typed % width = typed := by
    rw [Nat.mul_comm]; exact Nat.div_add_mod typed width
  simp only [render_split, split_by_char_index, Nat.mod_eq_of_lt h2,
    List.length_take, List.length_drop, get_string_length]
  have e1 : (typed / width + 1) * width = typed / width * width + width := by
    ring
  have e2 : (typed / width + 2) * width
      = typed / width * width + 2 * width := by ring
  rw [e1, e2]
  generalize typed / width * width = p at hd ⊢
  omega

/-- C2 witness: concrete instance of the amended line-wrap invariant. -/
theorem render_split_lengths_witness :
    1 ≤ 3 ∧ 5 / 3 < 65536 ∧
    ((render_split ['a', 'b', 'c'] 5 3).1.length = 5 ∧
      (render_split ['a', 'b', 'c'] 5 3).2.1.length = 3 - 5 % 3) :=
  ⟨by decide, by decide,
    render_split_lengths ['a', 'b', 'c'] 5 3 (by decide) (by decide)⟩

/-- C3: typing `'é'` (a 2-byte character) as the first character of a
session whose expected text begins `"éa"` makes the engine count a
mistake — it fetches the expected text by the *byte* length of the input
(2) and compares against the character at char index 1 (`'a'`) — although
the character at the char position of the newly appended character
(index 0) is `'é'` and matches, so per the claim the valid counter should
have been incremented. -/
theorem multibyte_input_uses_byte_index :
    handleKey
      { input := [], input_mode := .Editing, expected_corpus := ['é', 'a'],
        raw_mistakes_count := 0, raw_valid_characters_count := 0,
        is_started := true }
      { code := .Char 'é', modifiers := { control := false, alt := false } }
      = .next
        { input := ['é'], input_mode := .Editing,
          expected_corpus := ['é', 'a'], raw_mistakes_count := 1,
          raw_valid_characters_count := 0, is_started := true } ∧
    (get_string ['é', 'a'] 1).getLast? = some 'é' := by
  decide

/-- C7 counterexample: for input `"a   b"` (three spaces), word-delete by
the claim must leave the characters before the trailing run `"b"` and its
one preceding space — i.e. the prefix `"a  "` — unchanged, but the code
splits on whitespace and rejoins with single spaces, producing `"a "`. -/
theorem remove_last_word_cx :
    remove_last_word ['a', ' ', ' ', ' ', 'b'] = ['a', ' '] ∧
    ¬ (['a', ' ', ' '] <+: remove_last_word ['a', ' ', ' ', ' ', 'b']) := by
  decide

theorem swAux_append_of_not_ws (w : List Char)
    (hw : ∀ c ∈ w, isRustWhitespace c = false) :
    ∀ rest acc, swAux (w ++ rest) acc = swAux rest (w.reverse ++ acc) := by
  induction w with
  | nil => intro rest acc; simp
  | cons c w' ih =>
    intro rest acc
    have hc : isRustWhitespace c = false := hw c (by simp)
    have hw' : ∀ d ∈ w', isRustWhitespace d = false := fun d hd =>
      hw d (by simp [hd])
    simp only [List.cons_append, swAux, hc, Bool.false_eq_true, if_false]
    rw [show w'.append rest = w' ++ rest from rfl, ih hw' rest (c :: acc)]
    simp [List.reverse_cons, List.append_assoc]

theorem split_whitespace_joinSpace (ws : List (List Char))
    (hne : ∀ w ∈ ws, w ≠ [])
    (hnw : ∀ w ∈ ws, ∀ c ∈ w, isRustWhitespace c = false) :
    split_whitespace (joinSpace ws) = ws := by
  induction ws with
  | nil => rfl
  | cons w ws' ih =>
    have hwne : w ≠ [] := hne w (by simp)
    have hwnw : ∀ c ∈ w, isRustWhitespace c = false := hnw w (by simp)
    cases ws' with
    | nil =>
      show swAux (joinSpace [w]) [] = [w]
      have : joinSpace [w] = w ++ [] := by simp [joinSpace]
      rw [this, swAux_append_of_not_ws w hwnw]
      simp [swAux, hwne]
    | cons w2 ws'' =>
      have hj : joinSpace (w :: w2 :: ws'')
          = w ++ (' ' :: joinSpace (w2 :: ws'')) := rfl
      show swAux (joinSpace (w :: w2 :: ws'')) [] = w :: w2 :: ws''
      rw [hj, swAux_append_of_not_ws w hwnw]
      have hsp : isRustWhitespace ' ' = true := by decide
      simp only [swAux, hsp, if_true]
      have hacc : (w.reverse ++ []).isEmpty = false := by
        simp [List.isEmpty_iff, hwne]
      rw [hacc]
      simp only [Bool.false_eq_true, if_false, List.append_nil,
        List.reverse_reverse]
      have := ih (fun x hx => hne x (by simp [hx]))
        (fun x hx => hnw x (by simp [hx]))
      simp only [split_whitespace] at this
      simp [this]

theorem joinSpace_ne_nil (ws : List (List Char)) (h : ws ≠ [])
    (hne : ∀ w ∈ ws, w ≠ []) : joinSpace ws ≠ [] := by
  cases ws with
  | nil => exact absurd rfl h
  | cons w ws' =>
    cases ws' with
    | nil =>
      simpa [joinSpace] using hne w (by simp)
    | cons w2 ws'' =>
      have : w ≠ [] := hne w (by simp)
      simp [joinSpace]

/-- C7 (amended): for inputs in which the words are nonempty runs of
non-whitespace characters separated by single spaces, with no leading or
trailing whitespace (the form the engine itself produces), word-delete
removes the trailing word together with its one preceding space and
leaves a single trailing space when any input remains, all earlier
characters unchanged; on inputs with other whitespace (runs of several
spaces, trailing whitespace) the operation instead rebuilds the input
from its words joined by single spaces. -/
theorem remove_last_word_single_spaced (ws : List (List Char))
    (hne : ∀ w ∈ ws, w ≠ [])
    (hnw : ∀ w ∈ ws, ∀ c ∈ w, isRustWhitespace c = false) :
    remove_last_word (joinSpace ws)
      = if ws.dropLast.isEmpty then []
        else joinSpace ws.dropLast ++ [' '] := by
  unfold remove_last_word
  rw [split_whitespace_joinSpace ws hne hnw]
  cases hd : ws.dropLast with
  | nil => simp [joinSpace]
  | cons d ds =>
    have hdne : ∀ w ∈ ws.dropLast, w ≠ [] := fun w hw =>
      hne w (List.dropLast_subset _ hw)
    have : joinSpace ws.dropLast ≠ [] := by
      rw [hd]
      exact joinSpace_ne_nil _ (by simp) (hd ▸ hdne)
    simp only [hd] at this ⊢
    simp [List.isEmpty_iff, this]

/-- C7 witness: concrete instance of the amended word-delete property. -/
theorem remove_last_word_single_spaced_witness :
    (∀ w ∈ [['a'], ['b']], w ≠ []) ∧
    (∀ w ∈ [['a'], ['b']], ∀ c ∈ w, isRustWhitespace c = false) ∧
    remove_last_word (joinSpace [['a'], ['b']])
      = if [['a'], ['b']].dropLast.isEmpty then []
        else joinSpace [['a'], ['b']].dropLast ++ [' '] :=
  ⟨by decide, by decide,
    remove_last_word_single_spaced [['a'], ['b']] (by decide) (by decide)⟩

/-- C6: across every key-event transition that continues the session, the
raw counters never decrease; plain backspace in `Editing` mode removes
exactly the last character of the input and leaves both raw counters
unchanged, and both word-delete forms (ctrl+`h`/`w`, alt/ctrl+backspace)
leave both raw counters unchanged. -/
theorem raw_counters_monotone (s : RunnerState) (key : KeyEvent)
    (s' : RunnerState) (h : handleKey s key = .next s') :
    (s.raw_valid_characters_count ≤ s'.raw_valid_characters_count ∧
      s.raw_mistakes_count ≤ s'.raw_mistakes_count) ∧
    (s.input_mode = .Editing →
      (key.code = .Backspace → key.modifiers.alt = false →
        key.modifiers.control = false →
        s'.input = s.input.dropLast ∧
        s'.raw_valid_characters_count = s.raw_valid_characters_count ∧
        s'.raw_mistakes_count = s.raw_mistakes_count) ∧
      ((key.code = .Backspace ∧
          (key.modifiers.alt = true ∨ key.modifiers.control = true)) ∨
        (∃ c, key.code = .Char c ∧ (c = 'h' ∨ c = 'w') ∧
          key.modifiers.control = true) →
        s'.input = remove_last_word s.input ∧
        s'.raw_valid_characters_count = s.raw_valid_characters_count ∧
        s'.raw_mistakes_count = s.raw_mistakes_count)) := by
  rcases s with ⟨inp, mode, corp, rm, rv, st⟩
  rcases key with ⟨code, ctrl, alt⟩
  cases mode with
  | Normal =>
    cases code with
    | Char c =>
      simp only [handleKey, handleKeyNormal] at h
      by_cases hs : (c == 's') = true
      · rw [if_pos hs] at h
        cases h
        simp
      · rw [if_neg hs] at h
        by_cases hq : (c == 'q') = true
        · rw [if_pos hq] at h
          exact absurd h (by simp)
        · rw [if_neg hq] at h
          cases h
          simp
    | Backspace => cases h; simp
    | Esc => cases h; simp
    | Other => cases h; simp
  | Editing =>
    simp only [handleKey] at h
    cases h
    cases code with
    | Char c =>
      simp only [handleKeyEditing]
      by_cases hc : ((c == 'h' || c == 'w') && ctrl) = true
      · rw [if_pos hc]
        simp
      · rw [if_neg hc]
        constructor
        · split <;> simp
        · intro _
          refine ⟨by simp, ?_⟩
          rintro (⟨hbs, _⟩ | ⟨c', hc', hhw, hctrl⟩)

          · exact absurd hbs (by simp)
          · cases hc'
            exfalso
            apply hc
            rcases hhw with h1 | h1 <;> subst h1 <;> simp [hctrl]
    | Backspace =>
      simp only [handleKeyEditing]
      by_cases hm : (alt || ctrl) = true
      · rw [if_pos hm]
        refine ⟨by simp, fun _ => ⟨?_, ?_⟩⟩
        · intro _ ha hcl
          simp only [ha, hcl] at hm
          simp at hm
        · intro _
          simp
      · rw [if_neg hm]
        refine ⟨by simp, fun _ => ⟨fun _ _ _ => by simp, ?_⟩⟩
        rintro (⟨_, hor⟩ | ⟨c', hc', _, _⟩)
        · exfalso
          rcases hor with h1 | h1 <;> simp [h1] at hm
        · exact absurd hc' (by simp)
    | Esc =>
      simp only [handleKeyEditing]
      refine ⟨by simp, fun _ => ⟨fun hbs => absurd hbs (by simp), ?_⟩⟩
      rintro (⟨hbs, _⟩ | ⟨c', hc', _, _⟩)
      · exact absurd hbs (by simp)
      · exact absurd hc' (by simp)
    | Other =>
      simp only [handleKeyEditing]
      refine ⟨by simp, fun _ => ⟨fun hbs => absurd hbs (by simp), ?_⟩⟩
      rintro (⟨hbs, _⟩ | ⟨c', hc', _, _⟩)
      · exact absurd hbs (by simp)
      · exact absurd hc' (by simp)

/-- C6 witness: a plain backspace on a concrete `Editing` state. -/
theorem raw_counters_monotone_witness :
    handleKey
      { input := ['a', 'b'], input_mode := .Editing,
        expected_corpus := ['a'], raw_mistakes_count := 3,
        raw_valid_characters_count := 4, is_started := true }
      { code := .Backspace, modifiers := { control := false, alt := false } }
      = .next
        { input := ['a'], input_mode := .Editing, expected_corpus := ['a'],
          raw_mistakes_count := 3, raw_valid_characters_count := 4,
          is_started := true } ∧
    (4 ≤ 4 ∧ 3 ≤ 3) :=
  ⟨by decide,
    (raw_counters_monotone
      { input := ['a', 'b'], input_mode := .Editing,
        expected_corpus := ['a'], raw_mistakes_count := 3,
        raw_valid_characters_count := 4, is_started := true }
      { code := .Backspace, modifiers := { control := false, alt := false } }
      { input := ['a'], input_mode := .Editing, expected_corpus := ['a'],
        raw_mistakes_count := 3, raw_valid_characters_count := 4,
        is_started := true }
      (by decide)).1⟩

theorem zip_self_mismatch_nil (l : List Char) :
    (l.zip l).filter (fun p => p.1 != p.2) = [] := by
  induction l with
  | nil => rfl
  | cons x l' ih =>
    rw [List.zip_cons_cons, List.filter_cons_of_neg, ih]
    simp

theorem zip_mismatch_count (a b : List Char) :
    ((a.zip b).filter (fun p => p.1 != p.2)).length
      = ((List.range (min a.length b.length)).filter
          (fun i => a[i]? != b[i]?)).length := by
  induction a generalizing b with
  | nil => simp
  | cons x a' ih =>
    cases b with
    | nil => simp
    | cons y b' =>
      have hmin : min (x :: a').length (y :: b').length
          = min a'.length b'.length + 1 := by
        simp only [List.length_cons]; omega
      rw [hmin, List.range_succ_eq_map, List.zip_cons_cons]
      have htail : ((List.range (min a'.length b'.length)).map
            Nat.succ).filter (fun i => (x :: a')[i]? != (y :: b')[i]?)
          = ((List.range (min a'.length b'.length)).filter
              (fun i => a'[i]? != b'[i]?)).map Nat.succ := by
        rw [List.filter_map]
        congr 1
        apply List.filter_congr
        intro i _
        simp [Function.comp]
      by_cases hxy : x = y
      · subst hxy
        rw [List.filter_cons_of_neg (by simp),
          List.filter_cons_of_neg (by simp),
          htail, List.length_map]
        exact ih b'
      · rw [List.filter_cons_of_pos (by simp [hxy]),
          List.filter_cons_of_pos (by simp [hxy]),
          htail]
        simp only [List.length_cons, List.length_map]
        rw [ih b']

/-- C5 counterexample: an empty input buffer equals its (empty) expected
slice, yet the computed accuracy is `0`, not `100` — the claim's
"`input == expected_slice` implies `accuracy == 100`" clause conflicts
with its own zero-denominator clause at the empty input. -/
theorem get_stats_empty_input_cx :
    ([] : List Char) = get_string ['a'] (([] : List Char).length) ∧
    (get_stats ['a'] [] 0 0 30).mistakes_count = 0 ∧
    (get_stats ['a'] [] 0 0 30).accuracy = 0 ∧
    (get_stats ['a'] [] 0 0 30).accuracy ≠ 100 := by
  refine ⟨rfl, rfl, ?_, ?_⟩ <;>
    simp [get_stats, get_percentage]

/-- C5 (amended): `mistakes_count` is the number of character positions
at which input and expected slice differ, `valid_characters_count` is the
typed count minus the mistakes, `accuracy` is
`100 * valid_characters_count / typed_characters_count` with `accuracy = 0`
when the typed count is `0`; and when the input is *nonempty* and equals
the expected slice exactly, `mistakes_count = 0` and `accuracy = 100`
(for the empty input the zero-denominator clause wins and accuracy is
`0`). -/
theorem get_stats_accuracy (corpus input : List Char) (rv rm d : Nat) :
    ((get_stats corpus input rv rm d).mistakes_count
        = ((List.range input.length).filter
            (fun i => input[i]? != (get_string corpus input.length)[i]?)).length) ∧
    ((get_stats corpus input rv rm d).valid_characters_count
        = input.length - (get_stats corpus input rv rm d).mistakes_count) ∧
    (input.length = 0 → (get_stats corpus input rv rm d).accuracy = 0) ∧
    (input.length ≠ 0 →
      (get_stats corpus input rv rm d).accuracy
        = 100 * ((get_stats corpus input rv rm d).valid_characters_count : ℚ)
            / (input.length : ℚ)) ∧
    (input = get_string corpus input.length → input ≠ [] →
      (get_stats corpus input rv rm d).mistakes_count = 0 ∧
      (get_stats corpus input rv rm d).accuracy = 100) := by
  have hexp : (get_string corpus input.length).length = input.length :=
    get_string_length corpus input.length
  have hmists : (get_stats corpus input rv rm d).mistakes_count
      = ((input.zip (get_string corpus input.length)).filter
          (fun p => p.1 != p.2)).length := rfl
  refine ⟨?_, rfl, ?_, ?_, ?_⟩
  · rw [hmists, zip_mismatch_count, hexp, Nat.min_self]
  · intro h0
    simp only [get_stats, get_percentage, h0]
    simp
  · intro h0
    have hq : ((input.length : ℚ)) ≠ 0 := Nat.cast_ne_zero.mpr h0
    simp only [get_stats, get_percentage, if_neg hq]
    rw [div_mul_eq_mul_div, mul_comm]
  · intro heq h0
    have hlen0 : input.length ≠ 0 := fun hl =>
      h0 (List.length_eq_zero.mp hl)
    have hq : ((input.length : ℚ)) ≠ 0 := Nat.cast_ne_zero.mpr hlen0
    have hm0 : (get_stats corpus input rv rm d).mistakes_count = 0 := by
      rw [hmists]
      conv_lhs => rw [← heq]
      rw [zip_self_mismatch_nil]
      rfl
    refine ⟨hm0, ?_⟩
    have : (get_stats corpus input rv rm d).accuracy
        = get_percentage
            (((input.length - (get_stats corpus input rv rm d).mistakes_count
              : Nat)) : ℚ) ((input.length : ℚ)) := rfl
    rw [this, hm0, Nat.sub_zero, get_percentage, if_neg hq, div_self hq,
      one_mul]

/-- C5 witness: a nonempty input that exactly matches its expected slice
has zero mistakes and accuracy `100`. -/
theorem get_stats_accuracy_witness :
    ['a', ' '] = get_string ['a'] (['a', ' '].length) ∧
    ['a', ' '] ≠ ([] : List Char) ∧
    ((get_stats ['a'] ['a', ' '] 0 0 30).mistakes_count = 0 ∧
      (get_stats ['a'] ['a', ' '] 0 0 30).accuracy = 100) :=
  ⟨by decide, by decide,
    (get_stats_accuracy ['a'] ['a', ' '] 0 0 30).2.2.2.2
      (by decide) (by decide)⟩

/-- C8: the computed words-per-minute equals
`(valid_characters_count / 5) * (60 / duration_seconds)` with
`valid_characters_count` taken from the final corrected input; in
particular a 60-second test with 300 valid characters yields exactly
`60` (all `f64` operations involved are exact at these values). -/
theorem wpm_formula :
    (∀ corpus input : List Char, ∀ rv rm d : Nat,
      (get_stats corpus input rv rm d).wpm
        = ((get_stats corpus input rv rm d).valid_characters_count : ℚ) / 5
          * (60 / (d : ℚ))) ∧
    (get_stats ['a'] (get_string ['a'] 300) 0 0 60).wpm = 60 := by
  constructor
  · intro corpus input rv rm d
    show ((_ : Nat) : ℚ) / 5 * 60 / (d : ℚ) = _
    rw [mul_div_assoc]
    rfl
  · have hlen : (get_string ['a'] 300).length = 300 :=
      get_string_length ['a'] 300
    have hm : ((get_string ['a'] 300).zip
        (get_string ['a'] ((get_string ['a'] 300).length))).filter
          (fun p => p.1 != p.2) = [] := by
      rw [hlen]
      exact zip_self_mismatch_nil _
    show (((_ : Nat) : ℚ)) / 5 * 60 / ((60 : Nat) : ℚ) = 60
    rw [hm]
    simp only [List.length_nil, Nat.sub_zero, hlen]
    norm_num

theorem threshold_zero_ratio (n : Nat) : change_to_num_threshold 0 n = 0 := by
  unfold change_to_num_threshold roundHalfAwayFromZero
  rw [show ((0:ℚ) * (n:ℚ)) = 0 from by ring, if_pos le_rfl]
  have h : (⌊(0 + 1/2 : ℚ)⌋ : ℤ) = 0 := by norm_num [Int.floor_eq_iff]
  rw [h]
  rfl

theorem threshold_one_one : change_to_num_threshold 1 1 = 1 := by
  unfold change_to_num_threshold roundHalfAwayFromZero
  rw [if_pos (by norm_num)]
  have h : (⌊((1:ℚ) * ((1:Nat):ℚ) + 1/2)⌋ : ℤ) = 1 := by
    norm_num [Int.floor_eq_iff]
  rw [h]
  rfl

theorem threshold_half_two : change_to_num_threshold (1/2) 2 = 1 := by
  unfold change_to_num_threshold roundHalfAwayFromZero
  rw [if_pos (by positivity)]
  have h : (⌊((1/2:ℚ) * ((2:Nat):ℚ) + 1/2)⌋ : ℤ) = 1 := by
    norm_num [Int.floor_eq_iff]
  rw [h]
  rfl

/-- C4 counterexample: with the single multi-byte word `"é"` (1
character, 2 UTF-8 bytes) and ratio `1`, the replaced word consists of
`word.len()` = 2 random digits, so the word's character count is *not*
preserved; moreover the word is replaced because its index is below the
fixed threshold `round(ratio * word_count)`, not by a per-word random
decision. -/
theorem replace_words_with_numbers_cx :
    replace_words_with_numbers [['é']] rng0 1 = some ([['0', '0']], 0) ∧
    ['0', '0'].length ≠ ['é'].length := by
  constructor
  · simp only [replace_words_with_numbers,
      show [['é']].length = 1 from rfl, threshold_one_one]
    decide
  · decide

/-- C4 (amended): corpus construction with `numbers` enabled replaces
exactly the words whose index in the shuffled list is below the fixed
threshold `round(numbers_ratio * word_count)` — a deterministic
fixed-count slice, not an independent per-word Bernoulli decision — and a
replaced word consists of random decimal digits, one per UTF-8 *byte* of
the original word (so its character count is preserved exactly when the
original word is all single-byte characters); words at or above the
threshold are unchanged. -/
theorem replace_words_with_numbers_spec (string_vec : List (List Char))
    (rng : Nat → Nat → Fin 10) (ratio : ℚ) (new_vec : List (List Char))
    (pos : Nat)
    (h : replace_words_with_numbers string_vec rng ratio
      = some (new_vec, pos)) :
    new_vec.length = string_vec.length ∧
    ∀ i : Nat, i < string_vec.length →
      (i < change_to_num_threshold ratio string_vec.length →
        (new_vec.getD i []).length = byteLen (string_vec.getD i []) ∧
        ∀ c ∈ new_vec.getD i [], '0' ≤ c ∧ c ≤ '9') ∧
      (change_to_num_threshold ratio string_vec.length ≤ i →
        new_vec.getD i [] = string_vec.getD i []) := by
  unfold replace_words_with_numbers at h
  by_cases h0 : change_to_num_threshold ratio string_vec.length = 0
  · rw [if_pos h0] at h
    exact absurd h (by simp)
  · rw [if_neg h0] at h
    injection h with h1
    injection h1 with hv hp
    subst hv
    constructor
    · simp [List.enum_length]
    · intro i hi
      have henum : string_vec.enum[i]? = some (i, string_vec[i]) := by
        rw [List.getElem?_enum, List.getElem?_eq_getElem hi]
        rfl
      have hmap : ∀ f : Nat × List Char → List Char,
          (string_vec.enum.map f).getD i [] = f (i, string_vec[i]) := by
        intro f
        rw [List.getD_eq_getElem?_getD, List.getElem?_map, henum]
        rfl
      have hsrc : string_vec.getD i [] = string_vec[i] := by
        rw [List.getD_eq_getElem?_getD, List.getElem?_eq_getElem hi]
        rfl
      rw [hmap, hsrc]
      constructor
      · intro hlt
        rw [if_pos hlt]
        refine ⟨by simp [byteLen], ?_⟩
        intro c hc
        simp only [List.mem_map, List.mem_range] at hc
        obtain ⟨k, -, hck⟩ := hc
        subst hck
        have hv : ((rng i k).val : Nat) < 10 := (rng i k).isLt
        generalize ((rng i k).val : Nat) = v at hv ⊢
        interval_cases v <;> exact ⟨by decide, by decide⟩
      · intro hge
        rw [if_neg (by omega)]

/-- C4 witness: a concrete run of the amended property — with two
one-character ASCII words and ratio `1/2` the threshold is `1`, the first
word becomes one digit and the second word is untouched. -/
theorem replace_words_with_numbers_spec_witness :
    replace_words_with_numbers [['a'], ['b']] rng0 (1/2)
      = some ([['0'], ['b']], 0) ∧
    [['0'], ['b']].length = [['a'], ['b']].length := by
  have h : replace_words_with_numbers [['a'], ['b']] rng0 (1/2)
      = some ([['0'], ['b']], 0) := by
    simp only [replace_words_with_numbers,
      show [['a'], ['b']].length = 2 from rfl, threshold_half_two]
    decide
  exact ⟨h, (replace_words_with_numbers_spec [['a'], ['b']] rng0 (1/2)
    [['0'], ['b']] 0 h).1⟩

/-- C10: `replace_words_with_numbers` returns
`round(numbers_ratio * word_count) - 1` as a `usize`, which underflows
exactly when the rounded threshold is `0` (e.g. for `numbers_ratio = 0`);
when the threshold is `≥ 1` the returned position is `threshold - 1` —
the index of the *last* number-replaced word, one below the first
untouched index — and `ExpectedInput::new` passes it on as the starting
index of the uppercase and symbol passes. -/
theorem words_start_pos_spec (string_vec : List (List Char))
    (rng : Nat → Nat → Fin 10) (ratio : ℚ) :
    (replace_words_with_numbers string_vec rng ratio = none ↔
      change_to_num_threshold ratio string_vec.length = 0) ∧
    (ratio = 0 → replace_words_with_numbers string_vec rng ratio = none) ∧
    (∀ new_vec pos,
      replace_words_with_numbers string_vec rng ratio
        = some (new_vec, pos) →
      pos + 1 = change_to_num_threshold ratio string_vec.length) ∧
    (0 ≤ ratio → ratio ≤ 1 →
      ∀ new_vec pos,
        replace_words_with_numbers string_vec rng ratio
          = some (new_vec, pos) →
        pos < change_to_num_threshold ratio string_vec.length ∧
        pos < string_vec.length) := by
  have hsome : ∀ new_vec pos,
      replace_words_with_numbers string_vec rng ratio
        = some (new_vec, pos) →
      pos + 1 = change_to_num_threshold ratio string_vec.length := by
    intro new_vec pos h
    unfold replace_words_with_numbers at h
    by_cases h0 : change_to_num_threshold ratio string_vec.length = 0
    · rw [if_pos h0] at h
      exact absurd h (by simp)
    · rw [if_neg h0] at h
      injection h with h1
      injection h1 with hv hp
      omega
  refine ⟨?_, ?_, hsome, ?_⟩
  · unfold replace_words_with_numbers
    by_cases h0 : change_to_num_threshold ratio string_vec.length = 0
    · rw [if_pos h0]
      simp [h0]
    · rw [if_neg h0]
      simp [h0]
  · intro hr
    subst hr
    unfold replace_words_with_numbers
    rw [if_pos (threshold_zero_ratio string_vec.length)]
  · intro h0r h1r new_vec pos h
    have hthr := hsome new_vec pos h
    have hle : change_to_num_threshold ratio string_vec.length
        ≤ string_vec.length := by
      unfold change_to_num_threshold roundHalfAwayFromZero
      rw [if_pos (by positivity)]
      have hmul : ratio * (string_vec.length : ℚ) + 1 / 2
          ≤ (1 / 2 : ℚ) + (string_vec.length : ℚ) := by
        have : ratio * (string_vec.length : ℚ) ≤ (string_vec.length : ℚ) := by
          calc ratio * (string_vec.length : ℚ)
              ≤ 1 * (string_vec.length : ℚ) := by
                apply mul_le_mul_of_nonneg_right h1r
                positivity
            _ = (string_vec.length : ℚ) := one_mul _
        linarith
      have hfl := Int.floor_le_floor hmul
      rw [Int.floor_add_nat] at hfl
      have h12 : (⌊(1/2 : ℚ)⌋ : ℤ) = 0 := by norm_num [Int.floor_eq_iff]
      rw [h12, zero_add] at hfl
      calc (⌊ratio * (string_vec.length : ℚ) + 1/2⌋ : ℤ).toNat
          ≤ ((string_vec.length : ℤ)).toNat := Int.toNat_le_toNat hfl
        _ = string_vec.length := Int.toNat_natCast _
    omega

/-- C10 witness: at ratio `0` the rounded threshold is `0` and the
trailing `usize` subtraction underflows (modelled as `none`). -/
theorem words_start_pos_spec_witness :
    replace_words_with_numbers [['a']] rng0 0 = none :=
  (words_start_pos_spec [['a']] rng0 0).2.1 rfl

end Donkeytype
